import Mathlib

/-!
# Shallow embedding of `Projeto.py`

The program is a single-table record manager: an append-only record store
(`ArquivoRegistros`, a Python list of `Registro` objects) plus a binary search
tree index (`ArvoreBinariaBusca`) keyed by `cpf`, composed by
`SistemaGerenciadorBD`.

Two views of the tree are embedded:

* `ABB.Tree` — a value tree, embedding `ArvoreBinariaBusca` as used on its own
  (insert / search / remove / traversals).  When no record is mutated in place,
  the reference semantics of Python and value semantics coincide, so this
  embedding is faithful for tree-only runs.

* `PTree` — the tree as held by `SistemaGerenciadorBD`.  In Python the manager
  inserts the *same* `Registro` object into the store and into the tree node,
  so `Registro.zerar` (called by `ArquivoRegistros.deletar`) mutates the key
  seen by the index node.  Every `Registro` handled by the manager is the
  object stored at its slot, hence a node is faithfully represented by its
  `posicao` alone, with the record (and its key) read back through the store.
-/

/-- Python class `Registro` (`Projeto.py:5-28`).  `data_nascimento` is parsed
by `datetime.strptime` and is opaque to the core; we keep the parsed value as
the original string, with `none` standing for the Python `None` set by
`zerar`. -/
structure Registro where
  cpf : String
  nome : String
  data_nascimento : Option String
  deletado : Bool
deriving DecidableEq, Repr

/-- `Registro.zerar` (`Projeto.py:23-28`): blanks every field and raises the
tombstone flag, ignoring the previous contents. -/
def Registro.zerar (_r : Registro) : Registro :=
  { cpf := "", nome := "", data_nascimento := none, deletado := true }

/-- The unique value produced by `Registro.zerar`. -/
def blankR : Registro :=
  { cpf := "", nome := "", data_nascimento := none, deletado := true }

/-- The `<` of Python on `str`: lexicographic comparison of the character
(code point) sequences.  This is the order `Registro.__lt__` compares `cpf`
by (`Projeto.py:12-14`); it coincides with the Mathlib linear order on
`String` (`keyLt_iff` below) but, unlike the iterator-based decision
procedure of the latter, it evaluates by kernel reduction on concrete
inputs. -/
def keyLt (a b : String) : Prop :=
  a.data < b.data

instance (a b : String) : Decidable (keyLt a b) :=
  inferInstanceAs (Decidable (a.data < b.data))

namespace ABB

/-- Python class `No` (`Projeto.py:30-35`) together with the empty tree
(`None` in Python): a node holds a record, its store position and two
children. -/
inductive Tree where
  | leaf : Tree
  | node (registro : Registro) (posicao : Nat) (esquerda direita : Tree) : Tree
deriving DecidableEq, Repr

open Tree

/-- `ArvoreBinariaBusca.inserir` / `_inserir` (`Projeto.py:57-75`), as the tree
transformation.  `Registro.__lt__` and the reflected `>` both compare `cpf`, so
the comparisons are on keys; on an equal key the tree is returned unchanged
(the duplicate branch only prints — see `inserirDup`). -/
def inserir : Tree → Registro → Nat → Tree
  | leaf, registro, posicao => node registro posicao leaf leaf
  | node r p l rt, registro, posicao =>
    if keyLt registro.cpf r.cpf then node r p (inserir l registro posicao) rt
    else if keyLt r.cpf registro.cpf then node r p l (inserir rt registro posicao)
    else node r p l rt

/-- The side channel of `_inserir` (`Projeto.py:74-75`): `true` exactly when
the duplicate-key message `"Chave ... já existe na ABB"` is printed. -/
def inserirDup : Tree → Registro → Nat → Bool
  | leaf, _, _ => false
  | node r _ l rt, registro, posicao =>
    if keyLt registro.cpf r.cpf then inserirDup l registro posicao
    else if keyLt r.cpf registro.cpf then inserirDup rt registro posicao
    else true

/-- `ArvoreBinariaBusca.buscar` / `_buscar` (`Projeto.py:77-88`): returns the
record and position of the matching node, or `none`.  The equality test comes
first, exactly as in the source. -/
def buscar : Tree → String → Option (Registro × Nat)
  | leaf, _ => none
  | node r p l rt, chave =>
    if chave = r.cpf then some (r, p)
    else if keyLt chave r.cpf then buscar l chave
    else buscar rt chave

/-- `ArvoreBinariaBusca._minimo` (`Projeto.py:90-93`): leftmost node of a
(nonempty) subtree; `none` on the empty tree, which the source never passes. -/
def minimo : Tree → Option (Registro × Nat)
  | leaf => none
  | node r p l _ => some ((minimo l).getD (r, p))

/-- `ArvoreBinariaBusca.remover` / `_remover` (`Projeto.py:95-117`):
keyed removal with successor promotion for two-child nodes. -/
def remover : Tree → String → Tree
  | leaf, _ => leaf
  | node r p l rt, chave =>
    if keyLt chave r.cpf then node r p (remover l chave) rt
    else if keyLt r.cpf chave then node r p l (remover rt chave)
    else
      match l with
      | leaf => rt
      | _ =>
        match rt with
        | leaf => l
        | _ =>
          match minimo rt with
          | some (sr, sp) => node sr sp l (remover rt sr.cpf)
          | none => node r p l rt

/-- `ArvoreBinariaBusca.em_ordem` / `_em_ordem` (`Projeto.py:134-143`). -/
def em_ordem : Tree → List Registro
  | leaf => []
  | node r _ l rt => em_ordem l ++ r :: em_ordem rt

/-- `ArvoreBinariaBusca.pre_ordem` / `_pre_ordem` (`Projeto.py:123-132`). -/
def pre_ordem : Tree → List Registro
  | leaf => []
  | node r _ l rt => r :: (pre_ordem l ++ pre_ordem rt)

/-- `ArvoreBinariaBusca.pos_ordem` / `_pos_ordem` (`Projeto.py:145-154`). -/
def pos_ordem : Tree → List Registro
  | leaf => []
  | node r _ l rt => pos_ordem l ++ pos_ordem rt ++ [r]

/-- Number of nodes of a tree. -/
def size : Tree → Nat
  | leaf => 0
  | node _ _ l rt => size l + size rt + 1

/-- The FIFO loop of `percurso_largura` (`Projeto.py:156-169`): the list is
the deque, children are appended at the back. -/
def larguraFila : List Tree → List Registro
  | [] => []
  | leaf :: fila => larguraFila fila
  | node r _ l rt :: fila => r :: larguraFila (fila ++ [l, rt])
termination_by ts => 2 * (ts.map size).sum + ts.length
decreasing_by
  · simp [size]
  · simp [size]
    omega

/-- `ArvoreBinariaBusca.percurso_largura` (`Projeto.py:156-169`). -/
def percurso_largura (t : Tree) : List Registro :=
  larguraFila [t]

/-- Key sequence of the in-order traversal. -/
def chaves (t : Tree) : List String :=
  (em_ordem t).map Registro.cpf

/-- `chave` occurs at some node of the tree. -/
def KeyIn : Tree → String → Prop
  | leaf, _ => False
  | node r _ l rt, chave => chave = r.cpf ∨ KeyIn l chave ∨ KeyIn rt chave

/-- The binary-search-tree invariant documented for `ArvoreBinariaBusca`:
keys on the left strictly below the node key, keys on the right strictly
above. -/
inductive BST : Tree → Prop
  | leaf : BST .leaf
  | node {r : Registro} {p : Nat} {l rt : Tree} :
      (∀ k, KeyIn l k → keyLt k r.cpf) →
      (∀ k, KeyIn rt k → keyLt r.cpf k) →
      BST l → BST rt → BST (node r p l rt)

/-- Tree states reachable from the empty tree by `inserir` and `remover`. -/
inductive Reachable : Tree → Prop
  | empty : Reachable .leaf
  | ins {t : Tree} (registro : Registro) (posicao : Nat) :
      Reachable t → Reachable (inserir t registro posicao)
  | rem {t : Tree} (chave : String) :
      Reachable t → Reachable (remover t chave)

end ABB

namespace Arq

/-- `ArquivoRegistros.inserir` (`Projeto.py:176-178`): append, returning the
new list and the assigned position `len - 1`. -/
def inserir (registros : List Registro) (registro : Registro) :
    List Registro × Nat :=
  (registros ++ [registro], registros.length)

/-- `ArquivoRegistros.buscar_por_posicao` (`Projeto.py:180-183`).  The Python
position is an arbitrary integer, checked against `0 <= posicao < len`. -/
def buscar_por_posicao (registros : List Registro) (posicao : Int) :
    Option Registro :=
  if 0 ≤ posicao ∧ posicao < registros.length then registros.get? posicao.toNat
  else none

/-- `ArquivoRegistros.deletar` (`Projeto.py:185-187`): in bounds, `zerar` the
slot in place; out of bounds, do nothing. -/
def deletar (registros : List Registro) (posicao : Int) : List Registro :=
  if 0 ≤ posicao ∧ posicao < registros.length then
    match registros.get? posicao.toNat with
    | some r => registros.set posicao.toNat r.zerar
    | none => registros
  else registros

end Arq

/-- The index tree as owned by `SistemaGerenciadorBD`: in Python the
`registro` of each node is the very object stored at `registros[posicao]`
(the manager inserts the same object into both structures, and the successor
promotion of `_remover` copies `registro` and `posicao` together), so the
node is fully described by its position and the record is read back through
the store. -/
inductive PTree where
  | leaf : PTree
  | node (posicao : Nat) (esquerda direita : PTree) : PTree
deriving DecidableEq, Repr

namespace PTree

/-- The key currently shown by a node at store position `p`:
`registros[p].cpf`.  In every state built by the manager node positions are
in bounds, so the `""` default of the out-of-bounds case is never read. -/
def pkey (registros : List Registro) (p : Nat) : String :=
  match registros.get? p with
  | some r => r.cpf
  | none => ""

/-- `ArvoreBinariaBusca.inserir` as invoked by the manager
(`Projeto.py:57-75` via `Projeto.py:203`): the inserted record is
`registros[posicao]`, and every comparison reads keys through the store. -/
def pinserir (registros : List Registro) : PTree → Nat → PTree
  | leaf, posicao => node posicao leaf leaf
  | node p l rt, posicao =>
    if keyLt (pkey registros posicao) (pkey registros p) then
      node p (pinserir registros l posicao) rt
    else if keyLt (pkey registros p) (pkey registros posicao) then
      node p l (pinserir registros rt posicao)
    else node p l rt

/-- `ArvoreBinariaBusca.buscar` on the tree of the manager
(`Projeto.py:77-88`): returns the position held by the matching node. -/
def pbuscar (registros : List Registro) : PTree → String → Option Nat
  | leaf, _ => none
  | node p l rt, chave =>
    if chave = pkey registros p then some p
    else if keyLt chave (pkey registros p) then pbuscar registros l chave
    else pbuscar registros rt chave

/-- `ArvoreBinariaBusca._minimo` on the tree of the manager
(`Projeto.py:90-93`). -/
def pminimo : PTree → Option Nat
  | leaf => none
  | node p l _ => some ((pminimo l).getD p)

/-- `ArvoreBinariaBusca.remover` on the tree of the manager
(`Projeto.py:95-117`); keys are read through the store, which is how the
in-place mutation of `zerar` is visible to the removal. -/
def premover (registros : List Registro) : PTree → String → PTree
  | leaf, _ => leaf
  | node p l rt, chave =>
    if keyLt chave (pkey registros p) then node p (premover registros l chave) rt
    else if keyLt (pkey registros p) chave then node p l (premover registros rt chave)
    else
      match l with
      | leaf => rt
      | _ =>
        match rt with
        | leaf => l
        | _ =>
          match pminimo rt with
          | some sp => node sp l (premover registros rt (pkey registros sp))
          | none => node p l rt

/-- Key sequence of `em_ordem` on the tree of the manager
(`Projeto.py:134-143`): the traversal returns the aliased record objects,
whose keys are the current store contents. -/
def pchaves (registros : List Registro) : PTree → List String
  | leaf => []
  | node p l rt => pchaves registros l ++ pkey registros p :: pchaves registros rt

/-- Node count of the tree of the manager. -/
def psize : PTree → Nat
  | leaf => 0
  | node _ l rt => psize l + psize rt + 1

/-- Position `p` occurs at some node of the tree. -/
def MemPos : PTree → Nat → Prop
  | leaf, _ => False
  | node q l rt, p => p = q ∨ MemPos l p ∨ MemPos rt p

/-- The binary-search-tree invariant for the tree of the manager, relative to
a key function on positions (instantiated with `pkey registros`). -/
inductive BSTF (keyf : Nat → String) : PTree → Prop
  | leaf : BSTF keyf .leaf
  | node {p : Nat} {l rt : PTree} :
      (∀ q, MemPos l q → keyLt (keyf q) (keyf p)) →
      (∀ q, MemPos rt q → keyLt (keyf p) (keyf q)) →
      BSTF keyf l → BSTF keyf rt → BSTF keyf (node p l rt)

end PTree

/-- Python class `SistemaGerenciadorBD` (`Projeto.py:196-233`): one store and
one index tree. -/
structure Sistema where
  arquivo : List Registro
  indice : PTree
deriving DecidableEq, Repr

namespace Sistema

open PTree

/-- The empty system (`SistemaGerenciadorBD.__init__`, `Projeto.py:197-199`). -/
def vazio : Sistema := { arquivo := [], indice := .leaf }

/-- `SistemaGerenciadorBD.inserir_registro` (`Projeto.py:201-203`): append to
the store, then insert the same record (at its new position) into the index. -/
def inserir_registro (s : Sistema) (registro : Registro) : Sistema :=
  let par := Arq.inserir s.arquivo registro
  { arquivo := par.1, indice := pinserir par.1 s.indice par.2 }

/-- `SistemaGerenciadorBD.remover_registro_por_cpf` (`Projeto.py:205-212`):
look the key up; if found, first `zerar` the store slot (which, by aliasing,
blanks the key the node shows), then run the index removal. -/
def remover_registro_por_cpf (s : Sistema) (cpf : String) : Sistema :=
  match pbuscar s.arquivo s.indice cpf with
  | none => s
  | some p =>
    let arquivo2 := Arq.deletar s.arquivo (p : Int)
    { arquivo := arquivo2, indice := premover arquivo2 s.indice cpf }

/-- `SistemaGerenciadorBD.buscar_registro_por_cpf` (`Projeto.py:214-223`):
index lookup, store dereference, tombstone filter. -/
def buscar_registro_por_cpf (s : Sistema) (cpf : String) : Option Registro :=
  match pbuscar s.arquivo s.indice cpf with
  | none => none
  | some p =>
    match Arq.buscar_por_posicao s.arquivo (p : Int) with
    | none => none
    | some r => if r.deletado then none else some r

/-- The in-order walk of `criar_arquivo_ordenado` (`Projeto.py:225-233`),
collecting `buscar_por_posicao` results. -/
def ordenadoAux (registros : List Registro) : PTree → List (Option Registro)
  | .leaf => []
  | .node p l rt =>
    ordenadoAux registros l ++
      Arq.buscar_por_posicao registros (p : Int) :: ordenadoAux registros rt

/-- `SistemaGerenciadorBD.criar_arquivo_ordenado` (`Projeto.py:225-233`). -/
def criar_arquivo_ordenado (s : Sistema) : List (Option Registro) :=
  ordenadoAux s.arquivo s.indice

end Sistema

/-- One mutating operation of the system.  The read-only operations
(`buscar_por_posicao`, `buscar`, the traversals, `buscar_registro_por_cpf`,
`criar_arquivo_ordenado`) are pure functions of the state in this embedding
and do not change it. -/
inductive Op where
  | ins (registro : Registro) : Op
  | del (cpf : String) : Op
  | tomb (posicao : Int) : Op
deriving DecidableEq, Repr

/-- Apply one mutating operation to the system state. -/
def stepOp (s : Sistema) : Op → Sistema
  | .ins r => s.inserir_registro r
  | .del c => s.remover_registro_por_cpf c
  | .tomb p => { s with arquivo := Arq.deletar s.arquivo p }

/-- Run a sequence of mutating operations. -/
def runOps (s : Sistema) : List Op → Sistema
  | [] => s
  | op :: ops => runOps (stepOp s op) ops

/-! ## Concrete records and states used in the scenario claims -/

def regA : Registro :=
  { cpf := "A", nome := "Ana", data_nascimento := some "01/01/1990", deletado := false }

def regA2 : Registro :=
  { cpf := "A", nome := "Alba", data_nascimento := some "05/05/1995", deletado := false }

def regB : Registro :=
  { cpf := "B", nome := "Bia", data_nascimento := some "02/02/1990", deletado := false }

def regC : Registro :=
  { cpf := "C", nome := "Caio", data_nascimento := some "03/03/1990", deletado := false }

def regD : Registro :=
  { cpf := "D", nome := "Duda", data_nascimento := some "04/04/1990", deletado := false }

/-- Insert the record with key `"A"`, then delete key `"A"`. -/
def sA : Sistema := (Sistema.vazio.inserir_registro regA).remover_registro_por_cpf "A"

/-- Insert keys `"B"` then `"A"`, then delete key `"B"` (the root). -/
def sBA : Sistema :=
  ((Sistema.vazio.inserir_registro regB).inserir_registro regA).remover_registro_por_cpf "B"

/-- Insert keys `"A"`, `"B"`, `"C"` in ascending order, then delete `"A"`. -/
def sABC : Sistema :=
  (((Sistema.vazio.inserir_registro regA).inserir_registro regB).inserir_registro
    regC).remover_registro_por_cpf "A"

/-- Insert keys `"B"` then `"C"` (no deletion yet). -/
def sBC : Sistema := (Sistema.vazio.inserir_registro regB).inserir_registro regC

/-- The index tree after inserting keys `"B"`, `"A"`, `"D"`, `"C"` in that
order. -/
def tBADC : ABB.Tree :=
  ABB.inserir (ABB.inserir (ABB.inserir (ABB.inserir .leaf regB 0) regA 1) regD 2) regC 3

/-! ## Order facts about `keyLt` -/

theorem Registro.zerar_eq (r : Registro) : r.zerar = blankR := rfl

theorem keyLt_iff (a b : String) : keyLt a b ↔ a < b :=
  String.lt_iff_toList_lt.symm

theorem keyLt_trans {a b c : String} (h1 : keyLt a b) (h2 : keyLt b c) :
    keyLt a c := by
  rw [keyLt_iff] at h1 h2 ⊢
  exact lt_trans h1 h2

theorem keyLt_irrefl (a : String) : ¬ keyLt a a := by
  rw [keyLt_iff]
  exact lt_irrefl a

theorem keyLt_asymm {a b : String} (h : keyLt a b) : ¬ keyLt b a := by
  rw [keyLt_iff] at h ⊢
  exact lt_asymm h

theorem keyLt_trichotomy (a b : String) : keyLt a b ∨ a = b ∨ keyLt b a := by
  rw [keyLt_iff, keyLt_iff]
  exact lt_trichotomy a b

theorem keyLt_of_not (a b : String) (h1 : ¬ keyLt a b) (h2 : ¬ a = b) :
    keyLt b a := by
  rcases keyLt_trichotomy a b with h | h | h
  · exact absurd h h1
  · exact absurd h h2
  · exact h

theorem not_keyLt_empty (s : String) : ¬ keyLt s "" := by
  intro h
  unfold keyLt at h
  rw [show ("".data) = ([] : List Char) by decide] at h
  exact List.Lex.not_nil_right _ _ h

theorem empty_keyLt {k : String} (h : k ≠ "") : keyLt "" k := by
  unfold keyLt
  rw [show ("".data) = ([] : List Char) by decide]
  cases hk : k.data with
  | nil =>
    exfalso
    apply h
    cases k with
    | mk d =>
      simp only at hk
      rw [show ("" : String) = String.mk [] by decide, hk]
  | cons c cs =>
    exact List.nil_lt_cons c cs

/-! ## The BST invariant of the standalone index -/

namespace ABB

open Tree

theorem minimo_eq_none {t : Tree} (h : minimo t = none) : t = leaf := by
  cases t with
  | leaf => rfl
  | node r p l rt => simp [minimo] at h

theorem minimo_mem : ∀ {t : Tree} {m : Registro × Nat},
    minimo t = some m → KeyIn t m.1.cpf := by
  intro t
  induction t with
  | leaf => intro m h; simp [minimo] at h
  | node r p l rt ihl ihr =>
    intro m h
    simp only [minimo, Option.some.injEq] at h
    cases hl : minimo l with
    | none =>
      rw [hl] at h
      simp only [Option.getD_none] at h
      subst h
      exact Or.inl rfl
    | some m2 =>
      rw [hl] at h
      simp only [Option.getD_some] at h
      subst h
      exact Or.inr (Or.inl (ihl hl))

theorem KeyIn_remover : ∀ {t : Tree} {ch k : String},
    KeyIn (remover t ch) k → KeyIn t k := by
  intro t
  induction t with
  | leaf => intro ch k h; simp [remover, KeyIn] at h
  | node r p l rt ihl ihr =>
    intro ch k h
    simp only [remover] at h
    split_ifs at h with h1 h2
    · rcases h with h | h | h
      · exact Or.inl h
      · exact Or.inr (Or.inl (ihl h))
      · exact Or.inr (Or.inr h)
    · rcases h with h | h | h
      · exact Or.inl h
      · exact Or.inr (Or.inl h)
      · exact Or.inr (Or.inr (ihr h))
    · split at h
      · exact Or.inr (Or.inr h)
      · split at h
        · exact Or.inr (Or.inl h)
        · split at h
          · rcases h with h | h | h
            · subst h
              rename_i heq
              exact Or.inr (Or.inr (minimo_mem heq))
            · exact Or.inr (Or.inl h)
            · exact Or.inr (Or.inr (ihr h))
          · exact h

theorem minimo_le : ∀ {t : Tree}, BST t → ∀ m, minimo t = some m →
    ∀ k, KeyIn t k → m.1.cpf = k ∨ keyLt m.1.cpf k := by
  intro t
  induction t with
  | leaf => intro _ m hm; simp [minimo] at hm
  | node r p l rt ihl ihr =>
    intro hb m hm k hk
    cases hb with
    | node hl hr bl br =>
      simp only [minimo, Option.some.injEq] at hm
      cases hminl : minimo l with
      | none =>
        rw [hminl] at hm
        simp only [Option.getD_none] at hm
        subst hm
        have hleaf : l = leaf := minimo_eq_none hminl
        subst hleaf
        rcases hk with hk | hk | hk
        · exact Or.inl hk.symm
        · exact absurd hk (by simp [KeyIn])
        · exact Or.inr (hr k hk)
      | some m2 =>
        rw [hminl] at hm
        simp only [Option.getD_some] at hm
        subst hm
        rcases hk with hk | hk | hk
        · subst hk
          exact Or.inr (hl _ (minimo_mem hminl))
        · exact ihl bl m2 hminl k hk
        · exact Or.inr (keyLt_trans (hl _ (minimo_mem hminl)) (hr k hk))

theorem not_KeyIn_remover : ∀ {t : Tree}, BST t → ∀ ch,
    ¬ KeyIn (remover t ch) ch := by
  intro t
  induction t with
  | leaf => intro _ ch h; simp [remover, KeyIn] at h
  | node r p l rt ihl ihr =>
    intro hb ch h
    cases hb with
    | node hl hr bl br =>
      simp only [remover] at h
      split_ifs at h with h1 h2
      · rcases h with h | h | h
        · subst h
          exact keyLt_irrefl _ h1
        · exact ihl bl ch h
        · exact keyLt_asymm h1 (hr ch h)
      · rcases h with h | h | h
        · subst h
          exact keyLt_irrefl _ h2
        · exact keyLt_asymm h2 (hl ch h)
        · exact ihr br ch h
      · have hce : ch = r.cpf := by
          rcases keyLt_trichotomy ch r.cpf with h3 | h3 | h3
          · exact absurd h3 h1
          · exact h3
          · exact absurd h3 h2
        split at h
        · exact keyLt_irrefl ch (hce ▸ hr ch h)
        · split at h
          · exact absurd (hce ▸ hl ch h) (keyLt_irrefl _)
          · split at h
            · rename_i heq
              rcases h with h | h | h
              · have hlt : keyLt r.cpf _ := hr _ (minimo_mem heq)
                rw [← hce, ← h] at hlt
                exact keyLt_irrefl ch hlt
              · exact absurd (hce ▸ hl ch h) (keyLt_irrefl _)
              · exact keyLt_irrefl ch (hce ▸ hr ch (KeyIn_remover h))
            · rename_i hrtne x heq
              exact hrtne (minimo_eq_none heq)

theorem KeyIn_inserir : ∀ {t : Tree} {registro : Registro} {posicao : Nat}
    {k : String},
    KeyIn (inserir t registro posicao) k → KeyIn t k ∨ k = registro.cpf := by
  intro t
  induction t with
  | leaf =>
    intro registro posicao k h
    simp only [inserir, KeyIn, or_false] at h
    exact Or.inr h
  | node r p l rt ihl ihr =>
    intro registro posicao k h
    simp only [inserir] at h
    split_ifs at h with h1 h2
    · rcases h with h | h | h
      · exact Or.inl (Or.inl h)
      · rcases ihl h with h3 | h3
        · exact Or.inl (Or.inr (Or.inl h3))
        · exact Or.inr h3
      · exact Or.inl (Or.inr (Or.inr h))
    · rcases h with h | h | h
      · exact Or.inl (Or.inl h)
      · exact Or.inl (Or.inr (Or.inl h))
      · rcases ihr h with h3 | h3
        · exact Or.inl (Or.inr (Or.inr h3))
        · exact Or.inr h3
    · exact Or.inl h

theorem BST_inserir : ∀ {t : Tree}, BST t →
    ∀ (registro : Registro) (posicao : Nat), BST (inserir t registro posicao) := by
  intro t
  induction t with
  | leaf =>
    intro _ registro posicao
    simp only [inserir]
    exact BST.node (fun k hk => absurd hk (by simp [KeyIn]))
      (fun k hk => absurd hk (by simp [KeyIn])) BST.leaf BST.leaf
  | node r p l rt ihl ihr =>
    intro hb registro posicao
    cases hb with
    | node hl hr bl br =>
      simp only [inserir]
      split_ifs with h1 h2
      · refine BST.node ?_ hr (ihl bl registro posicao) br
        intro k hk
        rcases KeyIn_inserir hk with h3 | h3
        · exact hl k h3
        · exact h3 ▸ h1
      · refine BST.node hl ?_ bl (ihr br registro posicao)
        intro k hk
        rcases KeyIn_inserir hk with h3 | h3
        · exact hr k h3
        · exact h3 ▸ h2
      · exact BST.node hl hr bl br

theorem BST_remover : ∀ {t : Tree}, BST t → ∀ ch, BST (remover t ch) := by
  intro t
  induction t with
  | leaf =>
    intro _ ch
    simp only [remover]
    exact BST.leaf
  | node r p l rt ihl ihr =>
    intro hb ch
    cases hb with
    | node hl hr bl br =>
      simp only [remover]
      split_ifs with h1 h2
      · exact BST.node (fun k hk => hl k (KeyIn_remover hk)) hr (ihl bl ch) br
      · exact BST.node hl (fun k hk => hr k (KeyIn_remover hk)) bl (ihr br ch)
      · split
        · exact br
        · split
          · exact bl
          · split
            · rename_i heq
              have hmem : KeyIn rt _ := minimo_mem heq
              have hrs : keyLt r.cpf _ := hr _ hmem
              refine BST.node ?_ ?_ bl (ihr br _)
              · intro k hk
                exact keyLt_trans (hl k hk) hrs
              · intro k hk
                rcases minimo_le br _ heq k (KeyIn_remover hk) with he | hlt
                · exact absurd (he ▸ hk) (not_KeyIn_remover br _)
                · exact hlt
            · exact BST.node hl hr bl br

theorem chaves_node (r : Registro) (p : Nat) (l rt : Tree) :
    chaves (Tree.node r p l rt) = chaves l ++ r.cpf :: chaves rt := by
  simp [chaves, em_ordem]

theorem KeyIn_iff_mem_chaves : ∀ (t : Tree) (k : String),
    KeyIn t k ↔ k ∈ chaves t := by
  intro t
  induction t with
  | leaf => intro k; simp [KeyIn, chaves, em_ordem]
  | node r p l rt ihl ihr =>
    intro k
    rw [chaves_node]
    simp only [KeyIn, List.mem_append, List.mem_cons, ihl, ihr]
    tauto

theorem BST_sorted : ∀ {t : Tree}, BST t → List.Pairwise keyLt (chaves t) := by
  intro t
  induction t with
  | leaf => intro _; simp [chaves, em_ordem]
  | node r p l rt ihl ihr =>
    intro hb
    cases hb with
    | node hl hr bl br =>
      rw [chaves_node]
      rw [List.pairwise_append]
      refine ⟨ihl bl, ?_, ?_⟩
      · rw [List.pairwise_cons]
        refine ⟨?_, ihr br⟩
        intro k hk
        exact hr k ((KeyIn_iff_mem_chaves rt k).mpr hk)
      · intro a ha b hb2
        have hal : keyLt a r.cpf := hl a ((KeyIn_iff_mem_chaves l a).mpr ha)
        rcases List.mem_cons.mp hb2 with rfl | hb3
        · exact hal
        · exact keyLt_trans hal (hr b ((KeyIn_iff_mem_chaves rt b).mpr hb3))

theorem Reachable_BST : ∀ {t : Tree}, Reachable t → BST t := by
  intro t h
  induction h with
  | empty => exact BST.leaf
  | ins registro posicao _ ih => exact BST_inserir ih registro posicao
  | rem chave _ ih => exact BST_remover ih chave

theorem inserir_dup_eq : ∀ {t : Tree}, BST t →
    ∀ (registro : Registro) (posicao : Nat), KeyIn t registro.cpf →
    inserir t registro posicao = t ∧ inserirDup t registro posicao = true := by
  intro t
  induction t with
  | leaf =>
    intro _ registro posicao hk
    exact absurd hk (by simp [KeyIn])
  | node r p l rt ihl ihr =>
    intro hb registro posicao hk
    cases hb with
    | node hl hr bl br =>
      rcases hk with he | hkl | hkr
      · have hn1 : ¬ keyLt registro.cpf r.cpf := by
          rw [he]
          exact keyLt_irrefl r.cpf
        have hn2 : ¬ keyLt r.cpf registro.cpf := by
          rw [he]
          exact keyLt_irrefl r.cpf
        constructor
        · simp only [inserir, if_neg hn1, if_neg hn2]
        · simp only [inserirDup, if_neg hn1, if_neg hn2]
      · have h1 : keyLt registro.cpf r.cpf := hl _ hkl
        obtain ⟨ih1, ih2⟩ := ihl bl registro posicao hkl
        constructor
        · simp only [inserir, if_pos h1, ih1]
        · simp only [inserirDup, if_pos h1, ih2]
      · have h2 : keyLt r.cpf registro.cpf := hr _ hkr
        obtain ⟨ih1, ih2⟩ := ihr br registro posicao hkr
        constructor
        · simp only [inserir, if_neg (keyLt_asymm h2), if_pos h2, ih1]
        · simp only [inserirDup, if_neg (keyLt_asymm h2), if_pos h2, ih2]

end ABB

/-! ## Lemmas about the tree of the manager -/

namespace PTree

theorem pbuscar_mem : ∀ {t : PTree} {registros : List Registro} {chave : String}
    {p : Nat},
    pbuscar registros t chave = some p → MemPos t p ∧ pkey registros p = chave := by
  intro t
  induction t with
  | leaf => intro registros chave p h; simp [pbuscar] at h
  | node q l rt ihl ihr =>
    intro registros chave p h
    simp only [pbuscar] at h
    split_ifs at h with h1 h2
    · injection h with h
      subst h
      exact ⟨Or.inl rfl, h1.symm⟩
    · obtain ⟨hm, hk⟩ := ihl h
      exact ⟨Or.inr (Or.inl hm), hk⟩
    · obtain ⟨hm, hk⟩ := ihr h
      exact ⟨Or.inr (Or.inr hm), hk⟩

theorem premover_gt : ∀ {t : PTree} {registros : List Registro} {chave : String},
    (∀ q, MemPos t q → keyLt chave (pkey registros q)) →
    premover registros t chave = t := by
  intro t
  induction t with
  | leaf => intro registros chave _; rfl
  | node q l rt ihl ihr =>
    intro registros chave h
    have hq : keyLt chave (pkey registros q) := h q (Or.inl rfl)
    simp only [premover, if_pos hq]
    rw [ihl (fun q2 hq2 => h q2 (Or.inr (Or.inl hq2)))]

theorem premover_noop :
    ∀ {t : PTree} {a a2 : List Registro} {k : String} {p : Nat},
      BSTF (pkey a) t →
      (∀ q, MemPos t q → pkey a q ≠ "") →
      pbuscar a t k = some p →
      (∀ q, q ≠ p → pkey a2 q = pkey a q) →
      pkey a2 p = "" →
      premover a2 t k = t := by
  intro t
  induction t with
  | leaf => intro a a2 k p _ _ hfind; simp [pbuscar] at hfind
  | node q0 l rt ihl ihr =>
    intro a a2 k p hbst hne hfind hagree hblank
    cases hbst with
    | node hl hr bl br =>
      simp only [pbuscar] at hfind
      split_ifs at hfind with h1 h2
      · -- found at the root: `p = q0`, and the shown key of the root is now ""
        injection hfind with hp
        subst hp
        have hkne : k ≠ "" := h1 ▸ hne q0 (Or.inl rfl)
        simp only [premover, hblank, if_neg (not_keyLt_empty k),
          if_pos (empty_keyLt hkne)]
        rw [premover_gt]
        intro q hq
        have hqne : q ≠ q0 := by
          intro he
          subst he
          exact keyLt_irrefl _ (h1 ▸ hr q hq)
        rw [hagree q hqne, h1]
        exact hr q hq
      · -- k below the root key: recurse left
        have hq0ne : q0 ≠ p := by
          intro he
          exact h1 (he ▸ (pbuscar_mem hfind).2).symm
        have hkeyq0 : pkey a2 q0 = pkey a q0 := hagree q0 hq0ne
        simp only [premover, hkeyq0, if_pos h2]
        rw [ihl bl (fun q hq => hne q (Or.inr (Or.inl hq))) hfind hagree hblank]
      · -- k above the root key: recurse right
        have h3 : keyLt (pkey a q0) k := keyLt_of_not k (pkey a q0) h2 h1
        have hq0ne : q0 ≠ p := by
          intro he
          exact h1 (he ▸ (pbuscar_mem hfind).2).symm
        have hkeyq0 : pkey a2 q0 = pkey a q0 := hagree q0 hq0ne
        simp only [premover, hkeyq0, if_neg (keyLt_asymm h3), if_pos h3]
        rw [ihr br (fun q hq => hne q (Or.inr (Or.inr hq))) hfind hagree hblank]

theorem pinserir_dup :
    ∀ {t : PTree} {registros : List Registro} {registro : Registro},
      pbuscar registros t registro.cpf ≠ none →
      (∀ q, MemPos t q → q < registros.length) →
      pinserir (registros ++ [registro]) t registros.length = t := by
  intro t
  induction t with
  | leaf => intro registros registro hfound _; simp [pbuscar] at hfound
  | node p l rt ihl ihr =>
    intro registros registro hfound hbound
    have hp : p < registros.length := hbound p (Or.inl rfl)
    have hkeyp : pkey (registros ++ [registro]) p = pkey registros p := by
      unfold pkey
      rw [List.get?_append hp]
    have hkeyn : pkey (registros ++ [registro]) registros.length = registro.cpf := by
      unfold pkey
      rw [List.get?_concat_length]
    simp only [pbuscar] at hfound
    split_ifs at hfound with h1 h2
    · simp only [pinserir, hkeyn, hkeyp, ← h1, if_neg (keyLt_irrefl registro.cpf)]
    · simp only [pinserir, hkeyn, hkeyp, if_pos h2]
      rw [ihl hfound (fun q hq => hbound q (Or.inr (Or.inl hq)))]
    · have h3 : keyLt (pkey registros p) registro.cpf := keyLt_of_not _ _ h2 h1
      simp only [pinserir, hkeyn, hkeyp, if_neg (keyLt_asymm h3), if_pos h3]
      rw [ihr hfound (fun q hq => hbound q (Or.inr (Or.inr hq)))]

end PTree

/-! ## Preservation of tombstoned slots -/

theorem deletar_blank_preserved {registros : List Registro} {p : Nat}
    (h : registros.get? p = some blankR) (q : Int) :
    (Arq.deletar registros q).get? p = some blankR := by
  unfold Arq.deletar
  split_ifs with hq
  · cases hg : registros.get? q.toNat with
    | none =>
      simp only [hg]
      exact h
    | some r =>
      simp only [hg]
      by_cases he : q.toNat = p
      · subst he
        have hlt : q.toNat < registros.length := (List.get?_eq_some.mp hg).1
        rw [List.get?_set_eq_of_lt _ hlt]
        rfl
      · rw [List.get?_set_ne _ _ he, h]
  · exact h

theorem stepOp_blank_preserved {s : Sistema} {p : Nat}
    (h : s.arquivo.get? p = some blankR) (op : Op) :
    (stepOp s op).arquivo.get? p = some blankR := by
  cases op with
  | ins registro =>
    have hlt : p < s.arquivo.length := (List.get?_eq_some.mp h).1
    simp only [stepOp, Sistema.inserir_registro, Arq.inserir]
    rw [List.get?_append hlt]
    exact h
  | del cpf =>
    simp only [stepOp, Sistema.remover_registro_por_cpf]
    cases hb : PTree.pbuscar s.arquivo s.indice cpf with
    | none => exact h
    | some q => exact deletar_blank_preserved h q
  | tomb posicao => exact deletar_blank_preserved h posicao

theorem runOps_blank_preserved :
    ∀ (ops : List Op) (s : Sistema) (p : Nat),
      s.arquivo.get? p = some blankR →
      (runOps s ops).arquivo.get? p = some blankR := by
  intro ops
  induction ops with
  | nil => intro s p h; exact h
  | cons op ops ih =>
    intro s p h
    exact ih (stepOp s op) p (stepOp_blank_preserved h op)

/-! ## The claims -/

/-- C1: the claim states that `remover_registro_por_cpf` tombstones the store
slot AND removes the node of the key from the index, so that afterwards no
index node points at a tombstoned slot.  Evaluating the code on a fresh
system after inserting key `"A"` and deleting key `"A"` shows the opposite:
`ArquivoRegistros.deletar` runs first and, through the shared `Registro`
object, blanks the key held by the index node, so the subsequent
`indice.remover("A")` walks past the node (its shown key is now `""`) and
removes nothing — the index keeps its node at position `0` while store slot
`0` is tombstoned. -/
theorem c1_eval :
    sA.indice = PTree.node 0 .leaf .leaf ∧ sA.arquivo.get? 0 = some blankR := by
  decide

/-- C2: the claim states that a record inserted and never deleted is always
found by `buscar_registro_por_cpf`.  Evaluating the code on the run
insert `"B"`, insert `"A"`, delete `"B"` shows that record `"A"` is still
live in the store (slot 1) yet the lookup returns `none`: deleting `"B"`
blanked the root key to `""` without removing the root, and the search for
`"A"` descends to the right of the blank root, missing the left child that
holds `"A"`. -/
theorem c2_eval :
    sBA.arquivo.get? 1 = some regA ∧ sBA.buscar_registro_por_cpf "A" = none := by
  decide

/-- C3: the claim states that after inserting keys `"A"`, `"B"`, `"C"` and
deleting `"A"`, the in-order key sequence is exactly `["B", "C"]`.
Evaluating the code shows the in-order key sequence is `["", "B", "C"]`: the
node inserted for `"A"` is never removed, it stays with its key blanked to
`""`.  The second half of the claim does hold: the lookup of `"A"` returns
an absent result. -/
theorem c3_eval :
    PTree.pchaves sABC.arquivo sABC.indice = ["", "B", "C"] ∧
    sABC.buscar_registro_por_cpf "A" = none := by
  decide

/-- C4: for every tree state reachable from the empty tree by any sequence
of `inserir` and `remover` calls, the in-order traversal yields the node
keys in strictly ascending order. -/
theorem c4_reachable_inorder_sorted (t : ABB.Tree) (h : ABB.Reachable t) :
    List.Sorted (fun a b : String => a < b) (ABB.chaves t) :=
  List.Pairwise.imp (fun hab => (keyLt_iff _ _).mp hab)
    (ABB.BST_sorted (ABB.Reachable_BST h))

theorem c4_witness :
    List.Sorted (fun a b : String => a < b)
      (ABB.chaves (ABB.remover (ABB.inserir (ABB.inserir .leaf regB 0) regA 1) "B")) :=
  c4_reachable_inorder_sorted _
    (ABB.Reachable.rem "B"
      (ABB.Reachable.ins regA 1 (ABB.Reachable.ins regB 0 ABB.Reachable.empty)))

/-- C5: for every index state satisfying the BST invariant and every record
whose key already occurs in the tree, `inserir` returns the tree completely
unchanged, the duplicate-key message is printed (`inserirDup` is `true`),
and the node count is unchanged. -/
theorem c5_duplicate_rejected (t : ABB.Tree) (registro : Registro) (posicao : Nat)
    (hb : ABB.BST t) (hk : ABB.KeyIn t registro.cpf) :
    ABB.inserir t registro posicao = t ∧ ABB.inserirDup t registro posicao = true ∧
      ABB.size (ABB.inserir t registro posicao) = ABB.size t := by
  obtain ⟨h1, h2⟩ := ABB.inserir_dup_eq hb registro posicao hk
  exact ⟨h1, h2, by rw [h1]⟩

theorem c5_witness :
    ABB.inserir (ABB.inserir .leaf regA 0) regA2 1 = ABB.inserir .leaf regA 0 ∧
    ABB.inserirDup (ABB.inserir .leaf regA 0) regA2 1 = true ∧
    ABB.size (ABB.inserir (ABB.inserir .leaf regA 0) regA2 1) =
      ABB.size (ABB.inserir .leaf regA 0) :=
  c5_duplicate_rejected _ regA2 1 (ABB.BST_inserir ABB.BST.leaf regA 0) (Or.inl rfl)

/-- C6: for every table state in which the key of the record is already
indexed (and node positions are in bounds, as in every state the manager
builds), `inserir_registro` still appends the record to the store — the
store grows by one and is not rolled back — while the index tree is left
unchanged, so the new slot is an orphan: no index node points at it. -/
theorem c6_duplicate_insert_orphan (s : Sistema) (registro : Registro)
    (hfound : PTree.pbuscar s.arquivo s.indice registro.cpf ≠ none)
    (hbound : ∀ p, PTree.MemPos s.indice p → p < s.arquivo.length) :
    (s.inserir_registro registro).arquivo = s.arquivo ++ [registro] ∧
    (s.inserir_registro registro).arquivo.length = s.arquivo.length + 1 ∧
    (s.inserir_registro registro).indice = s.indice ∧
    ¬ PTree.MemPos (s.inserir_registro registro).indice s.arquivo.length := by
  have hind : (s.inserir_registro registro).indice = s.indice :=
    PTree.pinserir_dup hfound hbound
  refine ⟨rfl, by simp [Sistema.inserir_registro, Arq.inserir], hind, ?_⟩
  intro hmem
  rw [hind] at hmem
  exact lt_irrefl _ (hbound _ hmem)

theorem c6_witness :
    ((Sistema.vazio.inserir_registro regA).inserir_registro regA2).arquivo =
      (Sistema.vazio.inserir_registro regA).arquivo ++ [regA2] ∧
    ((Sistema.vazio.inserir_registro regA).inserir_registro regA2).arquivo.length =
      (Sistema.vazio.inserir_registro regA).arquivo.length + 1 ∧
    ((Sistema.vazio.inserir_registro regA).inserir_registro regA2).indice =
      (Sistema.vazio.inserir_registro regA).indice ∧
    ¬ PTree.MemPos ((Sistema.vazio.inserir_registro regA).inserir_registro regA2).indice
      (Sistema.vazio.inserir_registro regA).arquivo.length :=
  c6_duplicate_insert_orphan _ regA2 (by decide)
    (by
      intro p hp
      have he : (Sistema.vazio.inserir_registro regA).indice = PTree.node 0 .leaf .leaf := by
        decide
      rw [he] at hp
      rcases hp with rfl | hp | hp
      · decide
      · exact hp.elim
      · exact hp.elim)

/-- C7: inserting records with keys `"B"`, `"A"`, `"D"`, `"C"` in that order
into an empty index yields the in-order key sequence `["A","B","C","D"]`,
the pre-order key sequence `["B","A","D","C"]`, and the breadth-first key
sequence `["B","A","D","C"]`. -/
theorem c7_traversal_scenario :
    ABB.chaves tBADC = ["A", "B", "C", "D"] ∧
    (ABB.pre_ordem tBADC).map Registro.cpf = ["B", "A", "D", "C"] ∧
    (ABB.percurso_largura tBADC).map Registro.cpf = ["B", "A", "D", "C"] := by
  refine ⟨by decide, by decide, ?_⟩
  have ht : tBADC = ABB.Tree.node regB 0 (ABB.Tree.node regA 1 .leaf .leaf)
      (ABB.Tree.node regD 2 (ABB.Tree.node regC 3 .leaf .leaf) .leaf) := by decide
  rw [ABB.percurso_largura, ht]
  simp [ABB.larguraFila, regA, regB, regC, regD]

/-- C8: for every store and every integer position, `buscar_por_posicao`
returns the record stored at the position when `0 <= posicao < len` (a
`some`, never `none`), and returns the absent result otherwise; and
`deletar` with an out-of-bounds position leaves the store unchanged. -/
theorem c8_store_bounds (registros : List Registro) (posicao : Int) :
    (0 ≤ posicao → posicao < registros.length →
      Arq.buscar_por_posicao registros posicao = registros.get? posicao.toNat ∧
      registros.get? posicao.toNat ≠ none) ∧
    (¬ (0 ≤ posicao ∧ posicao < registros.length) →
      Arq.buscar_por_posicao registros posicao = none ∧
      Arq.deletar registros posicao = registros) := by
  constructor
  · intro h1 h2
    constructor
    · unfold Arq.buscar_por_posicao
      rw [if_pos ⟨h1, h2⟩]
    · intro hn
      rw [List.get?_eq_none] at hn
      omega
  · intro h
    constructor
    · unfold Arq.buscar_por_posicao
      rw [if_neg h]
    · unfold Arq.deletar
      rw [if_neg h]

theorem c8_witness :
    (Arq.buscar_por_posicao [regA] 0 = [regA].get? (0 : Int).toNat ∧
      [regA].get? (0 : Int).toNat ≠ none) ∧
    (Arq.buscar_por_posicao [regA] 5 = none ∧ Arq.deletar [regA] 5 = [regA]) :=
  ⟨(c8_store_bounds [regA] 0).1 (by decide) (by decide),
    (c8_store_bounds [regA] 5).2 (by decide)⟩

/-- C9: once a store slot holds the tombstoned (zeroed) record, no sequence
of system operations — store append or tombstone, manager insert or delete
(the reads are pure functions of the state) — ever changes that slot again:
its key, name and birth date stay blank and the tombstone flag stays set. -/
theorem c9_tombstone_irreversible (s : Sistema) (p : Nat) (ops : List Op)
    (h : s.arquivo.get? p = some blankR) :
    (runOps s ops).arquivo.get? p = some blankR :=
  runOps_blank_preserved ops s p h

theorem c9_witness :
    (runOps { arquivo := [blankR], indice := .leaf }
      [Op.ins regA, Op.del "A", Op.tomb 0]).arquivo.get? 0 = some blankR :=
  c9_tombstone_irreversible _ 0 _ rfl

/-- C10 counterexample: the claim quantifies over every table state and
every present key.  In the reachable state `sBA` (insert `"B"`, insert
`"A"`, delete `"B"`), the blank key `""` is present in the index
(`pbuscar` finds it at the blanked root), yet `remover_registro_por_cpf ""`
changes the node count from 2 to 1 — the matching node does not stay. -/
theorem c10_counterexample :
    PTree.pbuscar sBA.arquivo sBA.indice "" = some 0 ∧
    PTree.psize (sBA.remover_registro_por_cpf "").indice ≠ PTree.psize sBA.indice := by
  decide

/-- C10 amended: tombstoning through the manager blanks the key shown by the
aliased index node.  For every table state whose index satisfies the strict
BST invariant on the store-read keys and shows no blank key, if the index
search finds key `k` at node position `p`, then `remover_registro_por_cpf k`
leaves the index tree exactly unchanged — same node count, the matching node
still present and now showing the empty-string key — while the store slot at
`p` is tombstoned. -/
theorem c10_aliasing_delete (s : Sistema) (k : String) (p : Nat)
    (hbst : PTree.BSTF (PTree.pkey s.arquivo) s.indice)
    (hne : ∀ q, PTree.MemPos s.indice q → PTree.pkey s.arquivo q ≠ "")
    (hfind : PTree.pbuscar s.arquivo s.indice k = some p) :
    (s.remover_registro_por_cpf k).indice = s.indice ∧
    PTree.psize (s.remover_registro_por_cpf k).indice = PTree.psize s.indice ∧
    PTree.MemPos (s.remover_registro_por_cpf k).indice p ∧
    PTree.pkey (s.remover_registro_por_cpf k).arquivo p = "" ∧
    (s.remover_registro_por_cpf k).arquivo.get? p = some blankR := by
  obtain ⟨hmem, hkey⟩ := PTree.pbuscar_mem hfind
  have hkne : PTree.pkey s.arquivo p ≠ "" := hne p hmem
  have hsome : ∃ r0, s.arquivo.get? p = some r0 := by
    cases hg : s.arquivo.get? p with
    | none =>
      exfalso
      apply hkne
      unfold PTree.pkey
      rw [hg]
    | some r => exact ⟨r, rfl⟩
  obtain ⟨r0, hr0⟩ := hsome
  have hpb : p < s.arquivo.length := (List.get?_eq_some.mp hr0).1
  have hdel : Arq.deletar s.arquivo (p : Int) = s.arquivo.set p blankR := by
    unfold Arq.deletar
    rw [if_pos ⟨Int.natCast_nonneg p, by exact_mod_cast hpb⟩]
    rw [Int.toNat_natCast, hr0]
    rfl
  have hagree : ∀ q, q ≠ p →
      PTree.pkey (s.arquivo.set p blankR) q = PTree.pkey s.arquivo q := by
    intro q hq
    unfold PTree.pkey
    rw [List.get?_set_ne _ _ (fun he => hq he.symm)]
  have hblank : PTree.pkey (s.arquivo.set p blankR) p = "" := by
    unfold PTree.pkey
    rw [List.get?_set_eq_of_lt _ hpb]
    rfl
  have hnoop : PTree.premover (s.arquivo.set p blankR) s.indice k = s.indice :=
    PTree.premover_noop hbst hne hfind hagree hblank
  have hs2 : s.remover_registro_por_cpf k =
      { arquivo := s.arquivo.set p blankR, indice := s.indice } := by
    unfold Sistema.remover_registro_por_cpf
    rw [hfind]
    simp only [hdel, hnoop]
  rw [hs2]
  refine ⟨rfl, rfl, hmem, hblank, ?_⟩
  exact List.get?_set_eq_of_lt _ hpb

theorem c10_witness :
    (sBC.remover_registro_por_cpf "C").indice = sBC.indice ∧
    PTree.psize (sBC.remover_registro_por_cpf "C").indice = PTree.psize sBC.indice ∧
    PTree.MemPos (sBC.remover_registro_por_cpf "C").indice 1 ∧
    PTree.pkey (sBC.remover_registro_por_cpf "C").arquivo 1 = "" ∧
    (sBC.remover_registro_por_cpf "C").arquivo.get? 1 = some blankR := by
  have he : sBC.indice = PTree.node 0 .leaf (PTree.node 1 .leaf .leaf) := by decide
  apply c10_aliasing_delete sBC "C" 1
  · rw [he]
    refine PTree.BSTF.node (fun q hq => hq.elim) ?_ PTree.BSTF.leaf
      (PTree.BSTF.node (fun q hq => hq.elim) (fun q hq => hq.elim)
        PTree.BSTF.leaf PTree.BSTF.leaf)
    intro q hq
    rcases hq with rfl | hq | hq
    · decide
    · exact hq.elim
    · exact hq.elim
  · intro q hq
    rw [he] at hq
    rcases hq with rfl | hq | hq
    · decide
    · exact hq.elim
    · rcases hq with rfl | hq | hq
      · decide
      · exact hq.elim
      · exact hq.elim
  · decide
